import Mathlib

/-!
Verification of the stylometric authorship-attribution pipeline
(bigram language models with add-k smoothing, log-likelihood-ratio
window scoring, per-word label aggregation, run-length segmentation).

The Python `collections.Counter` is modelled as an association list
built from the underlying multiset; a lookup of an absent key yields 0,
as in Python. Rational numbers stand in for Python floats for the exact
count arithmetic; real numbers are used once logarithms appear.
Fallible operations (float division by zero, `math.log` of a
non-positive argument, `range` with zero step) return `Option`,
mirroring the exceptions Python would raise.
-/

set_option maxHeartbeats 1000000

namespace Stylometry

/-- Association-list counter built from a list of keys, as
`collections.Counter(l)` does: one entry per distinct key with its
multiplicity. -/
def counterOf {α : Type} [DecidableEq α] (l : List α) : List (α × ℕ) :=
  l.dedup.map (fun x => (x, l.count x))

/-- Counter lookup: the stored multiplicity of the key, or 0 when the key
is absent (Python `Counter` returns 0 for a missing key, it never
raises). -/
def counterGet {α : Type} [DecidableEq α] (c : List (α × ℕ)) (x : α) : ℕ :=
  (Option.map Prod.snd (c.find? (fun p => decide (p.1 = x)))).getD 0

/-- Bigram language model: bigram counter, left-context counter,
vocabulary (a set of tokens) and the add-k smoothing constant. -/
structure BigramModel where
  bigram : List ((String × String) × ℕ)
  context : List (String × ℕ)
  vocab : Finset String
  k : ℚ

/-- Sentinel bracketing `["<s>"] + tokens + ["</s>"]`, shared by
training and window scoring. -/
def bracket (tokens : List String) : List String :=
  "<s>" :: (tokens ++ ["</s>"])

/-- `BigramModel.train`: bracket the token sequence with the sentinels,
count bigrams `zip(seq[:-1], seq[1:])`, count contexts `seq[:-1]`, and
record the vocabulary `set(seq)`. -/
def BigramModel.train (tokens : List String) (k : ℚ) : BigramModel :=
  let seq := bracket tokens
  { bigram := counterOf (seq.dropLast.zip seq.tail)
    context := counterOf seq.dropLast
    vocab := seq.toFinset
    k := k }

/-- `BigramModel.prob`: add-k smoothed bigram probability
`(bigram[(w1,w2)] + k) / (context[w1] + k*V)`. Python float division by
a zero denominator raises `ZeroDivisionError`, modelled as `none`. -/
def BigramModel.prob (m : BigramModel) (w1 w2 : String) (V : ℕ) : Option ℚ :=
  let num : ℚ := (counterGet m.bigram (w1, w2) : ℚ) + m.k
  let den : ℚ := (counterGet m.context w1 : ℚ) + m.k * (V : ℚ)
  if den = 0 then none else some (num / den)

/-- The value `prob` returns when the denominator is nonzero, as a total
function (used to state theorems about defined probabilities). -/
def BigramModel.probVal (m : BigramModel) (w1 w2 : String) (V : ℕ) : ℚ :=
  ((counterGet m.bigram (w1, w2) : ℚ) + m.k) /
    ((counterGet m.context w1 : ℚ) + m.k * (V : ℚ))

/-- Log-likelihood-ratio scorer: the two trained models, the shared
(sorted) vocabulary union, and the half-width of the neutral band. -/
structure LLRScorer where
  model_A : BigramModel
  model_B : BigramModel
  vocab_union : List String
  eps_neither : ℚ

/-- One per-bigram step of `score_window`'s accumulation loop:
`s += math.log(pA / pB, 2)`. `ZeroDivisionError` on `pA / pB` with
`pB == 0` and the `math domain error` of `log` on a non-positive ratio
are modelled as `none`. -/
noncomputable def scoreStep (sc : LLRScorer) (V : ℕ) (acc : Option ℝ)
    (p : String × String) : Option ℝ :=
  do
    let s ← acc
    let pa ← sc.model_A.prob p.1 p.2 V
    let pb ← sc.model_B.prob p.1 p.2 V
    if pb = 0 then none
    else if pa / pb ≤ 0 then none
    else some (s + Real.logb 2 (((pa / pb : ℚ) : ℝ)))

/-- `LLRScorer.score_window`: bracket the window with the sentinels and
sum `log2(pA / pB)` over the consecutive bigrams, with
`V = len(vocab_union)`. -/
noncomputable def LLRScorer.score_window (sc : LLRScorer)
    (tokens : List String) : Option ℝ :=
  let seq := bracket tokens
  let V := sc.vocab_union.length
  (seq.dropLast.zip seq.tail).foldl (scoreStep sc V) (some 0)

/-- `LLRScorer.label`: `EMINESCU` above the neutral band, `STANESCU`
below it, otherwise `NEITHER` (strict comparisons on both sides). -/
noncomputable def LLRScorer.label (sc : LLRScorer) (score : ℝ) : String :=
  if score > ((sc.eps_neither : ℚ) : ℝ) then "EMINESCU"
  else if score < -((sc.eps_neither : ℚ) : ℝ) then "STANESCU"
  else "NEITHER"

/-- One row of the sliding-window report: half-open token range
`[start, endIdx)`, its score and label, and the window text. -/
structure WindowReport where
  start : ℕ
  endIdx : ℕ
  score : ℝ
  label : String
  snippet : String

/-- Recursion behind Python `range(start, stop, step)` for a positive
step: emit `start` while `start < stop`, advancing by `step`. -/
def rangeAux (start stop step : ℕ) : List ℕ :=
  if h : 0 < step ∧ start < stop then start :: rangeAux (start + step) stop step
  else []
termination_by stop - start
decreasing_by
  exact Nat.sub_lt_sub_left h.2 (Nat.lt_add_of_pos_right h.1)

/-- Python `range(start, stop, step)`: raises `ValueError` (modelled as
`none`) when `step = 0`. -/
def pythonRange (start stop step : ℕ) : Option (List ℕ) :=
  if step = 0 then none else some (rangeAux start stop step)

/-- Sequencing of a fallible body over a list, as a Python `for` loop
that appends results and propagates any exception. -/
def mapOption {α β : Type} (f : α → Option β) : List α → Option (List β)
  | [] => some []
  | a :: l => do
    let b ← f a
    let l' ← mapOption f l
    pure (b :: l')

/-- Row built by `sliding_window_scores` for the window starting at `i`
with effective window size `w`, given its score. -/
noncomputable def mkRow (sc : LLRScorer) (tokens : List String) (w i : ℕ) :
    Option WindowReport :=
  do
    let s ← sc.score_window ((tokens.drop i).take w)
    pure { start := i, endIdx := i + w, score := s, label := sc.label s,
           snippet := " ".intercalate ((tokens.drop i).take w) }

/-- `sliding_window_scores`: fewer than 2 tokens give an empty report
list (no error); otherwise the requested window is clamped to
`max 2 (min window n)` and one report is produced per start index of
`range(0, n - window + 1, step)`. -/
noncomputable def sliding_window_scores (tokens : List String)
    (scorer : LLRScorer) (window step : ℕ) : Option (List WindowReport) :=
  let n := tokens.length
  if n < 2 then some []
  else
    let w := max 2 (min window n)
    do
      let idxs ← pythonRange 0 (n - w + 1) step
      mapOption (mkRow scorer tokens w) idxs

/-- One pass of `word_level_labels`' inner loop: add the window score to
`sums[i]` and bump `cnts[i]`; the Python fixed-length float/int lists
are modelled as functions from positions. -/
noncomputable def accumStep (v : ℝ) (sc : (ℕ → ℝ) × (ℕ → ℕ)) (i : ℕ) :
    (ℕ → ℝ) × (ℕ → ℕ) :=
  (Function.update sc.1 i (sc.1 i + v), Function.update sc.2 i (sc.2 i + 1))

/-- `word_level_labels`: accumulate, for every position, the sum and
count of the scores of the windows covering it, then label the mean
(0 when the position is covered by no window). Python would raise
`IndexError` for a report reaching past the token list; well-formed
reports satisfy `endIdx ≤ tokens.length`. -/
noncomputable def word_level_labels (tokens : List String)
    (windows : List WindowReport) (scorer : LLRScorer) : List String :=
  let n := tokens.length
  if n = 0 then []
  else
    let sc := windows.foldl (fun sc r =>
      (List.range' r.start (r.endIdx - r.start)).foldl (accumStep r.score) sc)
      (fun _ => (0 : ℝ), fun _ => (0 : ℕ))
    (List.range n).map (fun i =>
      scorer.label (if sc.2 i ≠ 0 then sc.1 i / ((sc.2 i : ℕ) : ℝ) else 0))

/-- One detected segment: label, half-open token range `[start, endIdx)`
and the text of that range. -/
structure Segment where
  label : String
  start : ℕ
  endIdx : ℕ
  text : String
deriving DecidableEq

/-- One pass of `segments`' loop at index `i`: on a label change, close
the current segment at `i` and restart there. -/
def segStep (tokens labels : List String)
    (st : List Segment × String × ℕ) (i : ℕ) : List Segment × String × ℕ :=
  if labels.getD i "" ≠ st.2.1 then
    (st.1 ++ [{ label := st.2.1, start := st.2.2, endIdx := i,
                text := " ".intercalate ((tokens.drop st.2.2).take (i - st.2.2)) }],
     labels.getD i "", i)
  else st

/-- `segments`: scan the per-token labels left to right, closing a
segment at each label change and a final one at the end of the
sequence; an empty token list yields no segments. -/
def segments (tokens labels : List String) : List Segment :=
  if tokens = [] then []
  else
    let n := tokens.length
    let st := (List.range' 1 (n - 1)).foldl (segStep tokens labels)
      ([], labels.getD 0 "", 0)
    st.1 ++ [{ label := st.2.1, start := st.2.2, endIdx := n,
               text := " ".intercalate (tokens.drop st.2.2) }]

/-- Tail of the segmentation loop from index `j` onward, with `cur` the
label of the open segment that began at `start`; used to reason about
`segments` by structural recursion. -/
def buildFrom (tokens labels : List String) (cur : String) (start j : ℕ) :
    List Segment :=
  if h : j < tokens.length then
    if labels.getD j "" ≠ cur then
      { label := cur, start := start, endIdx := j,
        text := " ".intercalate ((tokens.drop start).take (j - start)) } ::
        buildFrom tokens labels (labels.getD j "") j (j + 1)
    else buildFrom tokens labels cur start (j + 1)
  else [{ label := cur, start := start, endIdx := tokens.length,
          text := " ".intercalate (tokens.drop start) }]
termination_by tokens.length - j

/-- Scorer assembled by `run_analysis`: the two models trained with the
same `k`, the sorted union of their vocabularies, and the neutral-band
half-width. -/
def trainedScorer (tokE tokS : List String) (k eps_neither : ℚ) :
    LLRScorer :=
  { model_A := BigramModel.train tokE k
    model_B := BigramModel.train tokS k
    vocab_union :=
      ((BigramModel.train tokE k).vocab ∪
        (BigramModel.train tokS k).vocab).sort (· ≤ ·)
    eps_neither := eps_neither }

/-- Core of `run_analysis` downstream of the (external) tokenizer: train
the two models, build the scorer over the sorted vocabulary union, clamp
the window to the accused length, then scan, aggregate and segment.
Printing is presentation and is not modelled. -/
noncomputable def run_analysis (tokE tokS tokA : List String)
    (window step : ℕ) (k eps_neither : ℚ) :
    Option (List WindowReport × List String × List Segment) :=
  let scorer := trainedScorer tokE tokS k eps_neither
  let effective_window :=
    if tokA = [] then window else max 2 (min window tokA.length)
  do
    let rows ← sliding_window_scores tokA scorer effective_window step
    let wlabs := word_level_labels tokA rows scorer
    let segs := segments tokA wlabs
    pure (rows, wlabs, segs)

/-- The per-bigram ratio `probVal A / probVal B` as a rational; its
base-2 logarithm is the per-bigram contribution to the window score. -/
def bigramRatio (sc : LLRScorer) (V : ℕ) (p : String × String) : ℚ :=
  sc.model_A.probVal p.1 p.2 V / sc.model_B.probVal p.1 p.2 V

/-- Conditions under which a bigram's scoring step succeeds: both
denominators are nonzero (no `ZeroDivisionError` in `prob`), and the
ratio is strictly positive (no `ZeroDivisionError` on `pA / pB` and no
`math domain error` in `log`). -/
def stepOk (sc : LLRScorer) (V : ℕ) (p : String × String) : Prop :=
  ((counterGet sc.model_A.context p.1 : ℚ) + sc.model_A.k * (V : ℚ)) ≠ 0 ∧
  ((counterGet sc.model_B.context p.1 : ℚ) + sc.model_B.k * (V : ℚ)) ≠ 0 ∧
  0 < bigramRatio sc V p

/-- Chained-coverage predicate: the segments tile the half-open range
`[a, b)` in order, without gaps or overlaps, each segment nonempty. -/
def isChain : ℕ → List Segment → ℕ → Prop
  | a, [], b => a = b
  | a, s :: rest, b => s.start = a ∧ a < s.endIdx ∧ isChain s.endIdx rest b

theorem find?_eq_of_mem {α : Type} [DecidableEq α] (l : List α) (x : α) :
    (l.find? (fun y => decide (y = x))) = if x ∈ l then some x else none := by
  induction l with
  | nil => simp
  | cons a l ih =>
    by_cases hax : a = x
    · subst hax
      simp [List.find?]
    · rw [List.find?]
      simp only [hax, decide_eq_true_eq, decide_False]
      rw [ih]
      simp [List.mem_cons, hax, Ne.symm hax]

/-- The `BEq` instance derived from decidable equality is lawful. -/
theorem lawfulBEq_ofDecidableEq {α : Type} [DecidableEq α] :
    @LawfulBEq α instBEqOfDecidableEq := by
  refine ⟨fun h => ?_, ?_⟩
  · exact of_decide_eq_true h
  · intro a
    show decide (a = a) = true
    exact decide_eq_true rfl

/-- `List.count` does not depend on which lawful `BEq` instance is in
scope (needed because pair counts elaborate with the product instance
while `counterOf` uses the one derived from decidable equality). -/
theorem count_beq_irrel {α : Type} (inst1 inst2 : BEq α)
    (h1 : @LawfulBEq α inst1) (h2 : @LawfulBEq α inst2) (a : α) (l : List α) :
    @List.count α inst1 a l = @List.count α inst2 a l := by
  induction l with
  | nil => rfl
  | cons b l ih =>
    rw [@List.count_cons α inst1, @List.count_cons α inst2, ih]
    congr 1
    by_cases hba : b = a
    · subst hba
      rw [@beq_self_eq_true α inst1 h1, @beq_self_eq_true α inst2 h2]
    · rw [@beq_eq_false_iff_ne α inst1 h1 b a |>.mpr hba,
          @beq_eq_false_iff_ne α inst2 h2 b a |>.mpr hba]

/-- Looking a key up in the counter built from `l` returns exactly the
multiplicity of the key in `l`; absent keys give 0. -/
theorem counterGet_counterOf {α : Type} [DecidableEq α] (l : List α) (x : α) :
    counterGet (counterOf l) x = l.count x := by
  unfold counterGet counterOf
  rw [List.find?_map]
  have hcomp : ((fun p : α × ℕ => decide (p.1 = x)) ∘ fun y => (y, l.count y))
      = fun y => decide (y = x) := rfl
  rw [hcomp, find?_eq_of_mem]
  by_cases hx : x ∈ l.dedup
  · simp [hx]
  · have hxl : x ∉ l := fun h => hx (List.mem_dedup.mpr h)
    simp [hx, List.count_eq_zero.mpr hxl]

theorem prob_eq_some_probVal (m : BigramModel) (w1 w2 : String) (V : ℕ)
    (hden : (counterGet m.context w1 : ℚ) + m.k * (V : ℚ) ≠ 0) :
    m.prob w1 w2 V = some (m.probVal w1 w2 V) := by
  unfold BigramModel.prob BigramModel.probVal
  simp [hden]

/-- The smoothing denominator is strictly positive as soon as `k > 0`
and `V ≥ 1` (the context count is a natural number). -/
theorem den_pos (m : BigramModel) (w1 : String) (V : ℕ)
    (hk : 0 < m.k) (hV : 1 ≤ V) :
    0 < (counterGet m.context w1 : ℚ) + m.k * (V : ℚ) := by
  have hVq : (1 : ℚ) ≤ (V : ℚ) := by exact_mod_cast hV
  have h1 : (0 : ℚ) ≤ (counterGet m.context w1 : ℚ) := by positivity
  have h2 : 0 < m.k * (V : ℚ) :=
    mul_pos hk (lt_of_lt_of_le one_pos hVq)
  linarith

/-- The smoothed probability value is strictly positive as soon as
`k > 0` and `V ≥ 1`. -/
theorem probVal_pos (m : BigramModel) (w1 w2 : String) (V : ℕ)
    (hk : 0 < m.k) (hV : 1 ≤ V) : 0 < m.probVal w1 w2 V := by
  have hnum : 0 < (counterGet m.bigram (w1, w2) : ℚ) + m.k := by
    have h1 : (0 : ℚ) ≤ (counterGet m.bigram (w1, w2) : ℚ) := by positivity
    linarith
  exact div_pos hnum (den_pos m w1 V hk hV)

/-- For any model the smoothed probability is defined and strictly
positive as soon as `k > 0` and `V ≥ 1`: the counts are naturals, so
both numerator and denominator are strictly positive. -/
theorem prob_pos_aux (m : BigramModel) (w1 w2 : String) (V : ℕ)
    (hk : 0 < m.k) (hV : 1 ≤ V) :
    ∃ p, m.prob w1 w2 V = some p ∧ 0 < p :=
  ⟨m.probVal w1 w2 V,
    prob_eq_some_probVal m w1 w2 V (ne_of_gt (den_pos m w1 V hk hV)),
    probVal_pos m w1 w2 V hk hV⟩

/-- The trained model's context lookup is the multiplicity of the token
among the left members `seq[:-1]` of the bracketed sequence. -/
theorem train_context_get (tokens : List String) (k : ℚ) (w1 : String) :
    counterGet (BigramModel.train tokens k).context w1 =
      (bracket tokens).dropLast.count w1 := by
  refine (counterGet_counterOf (bracket tokens).dropLast w1).trans
    (count_beq_irrel _ _ lawfulBEq_ofDecidableEq ?_ _ _)
  infer_instance

/-- The trained model's bigram lookup is the multiplicity of the pair
among the consecutive bigrams of the bracketed sequence. -/
theorem train_bigram_get (tokens : List String) (k : ℚ) (w1 w2 : String) :
    counterGet (BigramModel.train tokens k).bigram (w1, w2) =
      ((bracket tokens).dropLast.zip (bracket tokens).tail).count (w1, w2) := by
  refine (counterGet_counterOf ((bracket tokens).dropLast.zip
    (bracket tokens).tail) (w1, w2)).trans
    (count_beq_irrel _ _ lawfulBEq_ofDecidableEq ?_ _ _)
  infer_instance

/-- C1: for a trained model, `prob` returns exactly
`(bigramCounts[(w1,w2)] + k) / (contextCounts[w1] + k*V)`, where the
counter entries are the multiplicities of the pair among the bigrams of
the bracketed training sequence and of the token among its contexts;
absent pairs and absent contexts contribute count 0 instead of failing.
The hypothesis excludes only a zero denominator (Python's
`ZeroDivisionError`), which cannot occur for `k > 0` and `V ≥ 1`. -/
theorem prob_of_train_eq_counts (tokens : List String) (k : ℚ)
    (w1 w2 : String) (V : ℕ)
    (hden : (((bracket tokens).dropLast.count w1 : ℚ) + k * (V : ℚ)) ≠ 0) :
    (BigramModel.train tokens k).prob w1 w2 V =
      some (((((bracket tokens).dropLast.zip (bracket tokens).tail).count
          (w1, w2) : ℚ) + k) /
        (((bracket tokens).dropLast.count w1 : ℚ) + k * (V : ℚ))) := by
  unfold BigramModel.prob
  rw [train_context_get, train_bigram_get]
  have hkk : (BigramModel.train tokens k).k = k := rfl
  rw [hkk, if_neg hden]

/-- Witness for C1 at a concrete input: both the queried pair and the
queried context are absent from the model trained on `["a"]`, so both
counts are 0 and the probability is `(0 + 1) / (0 + 1*3)`. -/
theorem prob_of_train_eq_counts_witness :
    ((((bracket ["a"]).dropLast.count "q" : ℚ) + 1 * ((3 : ℕ) : ℚ)) ≠ 0) ∧
      (BigramModel.train ["a"] 1).prob "q" "r" 3 = some (1 / 3) :=
  ⟨by simp +decide [bracket],
    (prob_of_train_eq_counts ["a"] 1 "q" "r" 3 (by simp +decide [bracket])).trans
      (by simp +decide [bracket])⟩

/-- C5: the labelling rule is `EMINESCU` strictly above the band,
`STANESCU` strictly below it, `NEITHER` otherwise; both boundary values
map to `NEITHER`, and any positive excursion `δ` past a boundary flips
the label. -/
theorem label_threshold_spec (sc : LLRScorer) (s δ : ℝ)
    (he : 0 ≤ sc.eps_neither) (hδ : 0 < δ) :
    (s > ((sc.eps_neither : ℚ) : ℝ) → sc.label s = "EMINESCU") ∧
    (s < -((sc.eps_neither : ℚ) : ℝ) → sc.label s = "STANESCU") ∧
    (¬ s > ((sc.eps_neither : ℚ) : ℝ) → ¬ s < -((sc.eps_neither : ℚ) : ℝ) →
      sc.label s = "NEITHER") ∧
    sc.label ((sc.eps_neither : ℚ) : ℝ) = "NEITHER" ∧
    sc.label (-((sc.eps_neither : ℚ) : ℝ)) = "NEITHER" ∧
    sc.label (((sc.eps_neither : ℚ) : ℝ) + δ) = "EMINESCU" ∧
    sc.label (-((sc.eps_neither : ℚ) : ℝ) - δ) = "STANESCU" := by
  have heR : (0 : ℝ) ≤ ((sc.eps_neither : ℚ) : ℝ) := by exact_mod_cast he
  unfold LLRScorer.label
  refine ⟨fun h => by simp [h], fun h => ?_, fun h1 h2 => by simp [h1, h2],
    ?_, ?_, ?_, ?_⟩
  · have hns : ¬ s > ((sc.eps_neither : ℚ) : ℝ) := by linarith
    simp [hns, h]
  · have h1 : ¬ ((sc.eps_neither : ℚ) : ℝ) > ((sc.eps_neither : ℚ) : ℝ) :=
      lt_irrefl _
    have h2 : ¬ ((sc.eps_neither : ℚ) : ℝ) < -((sc.eps_neither : ℚ) : ℝ) := by
      linarith
    simp [h1, h2]
  · have h1 : ¬ -((sc.eps_neither : ℚ) : ℝ) > ((sc.eps_neither : ℚ) : ℝ) := by
      linarith
    have h2 : ¬ -((sc.eps_neither : ℚ) : ℝ) < -((sc.eps_neither : ℚ) : ℝ) :=
      lt_irrefl _
    simp [h1, h2]
  · have h1 : ((sc.eps_neither : ℚ) : ℝ) + δ > ((sc.eps_neither : ℚ) : ℝ) := by
      linarith
    simp [h1]
  · have h1 : ¬ -((sc.eps_neither : ℚ) : ℝ) - δ > ((sc.eps_neither : ℚ) : ℝ) := by
      linarith
    have h2 : -((sc.eps_neither : ℚ) : ℝ) - δ < -((sc.eps_neither : ℚ) : ℝ) := by
      linarith
    simp [h1, h2]

/-- Witness for C5 at a concrete scorer with `eps_neither = 1/4`,
`s = 1` and `δ = 1`. -/
theorem label_threshold_spec_witness :
    (0 : ℚ) ≤ (LLRScorer.mk (BigramModel.train ["a"] 1)
        (BigramModel.train ["b"] 1) ["x"] (1 / 4)).eps_neither ∧
      (0 : ℝ) < 1 ∧
      (LLRScorer.mk (BigramModel.train ["a"] 1) (BigramModel.train ["b"] 1)
        ["x"] (1 / 4)).label
          ((((1 / 4 : ℚ) : ℚ) : ℝ) + 1) = "EMINESCU" :=
  ⟨by show (0 : ℚ) ≤ 1 / 4; norm_num, one_pos,
    (label_threshold_spec
      (LLRScorer.mk (BigramModel.train ["a"] 1) (BigramModel.train ["b"] 1)
        ["x"] (1 / 4)) 1 1 (by show (0 : ℚ) ≤ 1 / 4; norm_num)
      one_pos).2.2.2.2.2.1⟩

/-- C8: a trained model's smoothed probability is strictly positive
whenever `k > 0` (with `V` at least 1; the shared vocabulary-union size
is always at least 2 because both sentinels belong to each
vocabulary). -/
theorem prob_pos_of_k_pos (tokens : List String) (k : ℚ) (w1 w2 : String)
    (V : ℕ) (hk : 0 < k) (hV : 1 ≤ V) :
    ∃ p, (BigramModel.train tokens k).prob w1 w2 V = some p ∧ 0 < p :=
  prob_pos_aux (BigramModel.train tokens k) w1 w2 V hk hV

/-- Witness for C8 at a concrete trained model and query. -/
theorem prob_pos_of_k_pos_witness :
    (0 : ℚ) < 1 ∧ (1 : ℕ) ≤ 4 ∧
      ∃ p, (BigramModel.train ["a"] 1).prob "a" "b" 4 = some p ∧ 0 < p :=
  ⟨by norm_num, by decide,
    prob_pos_of_k_pos ["a"] 1 "a" "b" 4 (by norm_num) (by decide)⟩

/-- Ceiling-division step identity behind the length of a Python range:
for `d ≥ 1` the count `⌈d / step⌉` decreases by one when `d` shrinks by
`step`. -/
theorem ceil_div_step (step : ℕ) (hs : 0 < step) (d : ℕ) (hd : 1 ≤ d) :
    (d + step - 1) / step = ((d - step) + step - 1) / step + 1 := by
  rcases le_or_lt step d with hsd | hds
  · have h1 : d + step - 1 = (d - 1) + step := by omega
    have h2 : (d - step) + step - 1 = d - 1 := by omega
    rw [h1, h2, Nat.add_div_right _ hs]
  · have h0 : d - step = 0 := by omega
    have h1 : (0 + step - 1) / step = 0 := Nat.div_eq_of_lt (by omega)
    have h2 : (d + step - 1) / step = 1 := by
      rw [Nat.div_eq_sub_div hs (by omega), Nat.div_eq_of_lt (by omega)]
    rw [h0, h1, h2]

/-- `rangeAux` is `List.range'` with the ceiling count
`⌈(stop - start) / step⌉`, for a positive step. -/
theorem rangeAux_eq_range' (step : ℕ) (hs : 0 < step) :
    ∀ fuel start stop, stop - start ≤ fuel →
      rangeAux start stop step =
        List.range' start ((stop - start + step - 1) / step) step := by
  intro fuel
  induction fuel with
  | zero =>
    intro start stop h
    have hss : ¬ start < stop := by omega
    rw [rangeAux]
    have hcnt : (stop - start + step - 1) / step = 0 := by
      have : stop - start = 0 := by omega
      rw [this]
      exact Nat.div_eq_of_lt (by omega)
    simp [hss, hcnt]
  | succ fuel ih =>
    intro start stop h
    by_cases hss : start < stop
    · rw [rangeAux]
      simp only [hs, hss, and_self, dite_true]
      rw [ih (start + step) stop (by omega)]
      rw [ceil_div_step step hs (stop - start) (by omega)]
      have harg : stop - (start + step) = stop - start - step := by omega
      rw [harg]
      rfl
    · rw [rangeAux]
      have hcnt : (stop - start + step - 1) / step = 0 := by
        have : stop - start = 0 := by omega
        rw [this]
        exact Nat.div_eq_of_lt (by omega)
      simp [hss, hcnt]

/-- `pythonRange` from 0 with a positive step is defined and is the
arithmetic progression of `⌊(stop - 1) / step⌋ + 1` indices (for
`stop ≥ 1`). -/
theorem pythonRange_zero_eq (stop step : ℕ) (hs : 1 ≤ step) (h1 : 1 ≤ stop) :
    pythonRange 0 stop step =
      some (List.range' 0 ((stop - 1) / step + 1) step) := by
  unfold pythonRange
  rw [if_neg (by omega)]
  rw [rangeAux_eq_range' step hs stop 0 stop (by omega)]
  have : stop - 0 + step - 1 = (stop - 1) + step := by omega
  rw [this, Nat.add_div_right _ hs]

/-- A fallible body that succeeds on every element makes the loop
succeed, elementwise. -/
theorem mapOption_isSome {α β : Type} (f : α → Option β) :
    ∀ l : List α, (∀ a ∈ l, (f a).isSome) →
      ∃ l', mapOption f l = some l' ∧
        List.Forall₂ (fun a b => f a = some b) l l' := by
  intro l
  induction l with
  | nil => exact fun _ => ⟨[], rfl, List.Forall₂.nil⟩
  | cons a l ih =>
    intro h
    obtain ⟨b, hb⟩ := Option.isSome_iff_exists.mp (h a (List.mem_cons_self a l))
    obtain ⟨l', hl', hall⟩ := ih (fun x hx => h x (List.mem_cons_of_mem a hx))
    refine ⟨b :: l', ?_, List.Forall₂.cons hb hall⟩
    unfold mapOption
    rw [hb, hl']
    rfl

/-- Projecting an elementwise-produced list through `g` agrees with
projecting the inputs through `h`. -/
theorem forall₂_map_eq {α β γ : Type} (f : α → Option β) (g : β → γ)
    (h : α → γ) :
    ∀ (l : List α) (l' : List β),
      List.Forall₂ (fun a b => f a = some b) l l' →
      (∀ a r, f a = some r → g r = h a) → l'.map g = l.map h := by
  intro l l' hall hinv
  induction hall with
  | nil => rfl
  | cons hab _ ih =>
    simp only [List.map_cons, ih]
    rw [hinv _ _ hab]

/-- A produced window report starts at its start index and spans exactly
the effective window. -/
theorem mkRow_inv (sc : LLRScorer) (tokens : List String) (w i : ℕ)
    (r : WindowReport) (h : mkRow sc tokens w i = some r) :
    (r.start, r.endIdx) = (i, i + w) := by
  simp only [mkRow] at h
  cases hsw : sc.score_window ((tokens.drop i).take w) with
  | none => rw [hsw] at h; exact absurd h (by simp)
  | some s =>
    rw [hsw] at h
    simp only [Option.bind_eq_bind, Option.some_bind, Option.pure_def,
      Option.some_inj] at h
    rw [← h]

/-- A scoring function that always succeeds makes each row succeed. -/
theorem mkRow_isSome (sc : LLRScorer) (tokens : List String) (w i : ℕ)
    (hsc : ∀ win, (sc.score_window win).isSome) :
    (mkRow sc tokens w i).isSome := by
  simp only [mkRow]
  obtain ⟨s, hs⟩ :=
    Option.isSome_iff_exists.mp (hsc ((tokens.drop i).take w))
  rw [hs]
  rfl

/-- General shape of a successful scan: with at least 2 tokens, a
positive step, and a total scorer, the scan succeeds and produces
exactly `⌊(n - w) / step⌋ + 1` reports at starts `0, step, 2*step, …`,
each spanning the effective window `w = max 2 (min window n)`. -/
theorem scan_spec (tokens : List String) (scorer : LLRScorer)
    (window step : ℕ) (hn : 2 ≤ tokens.length) (hs : 1 ≤ step)
    (hsc : ∀ win, (scorer.score_window win).isSome) :
    ∃ rows, sliding_window_scores tokens scorer window step = some rows ∧
      rows.length =
        (tokens.length - max 2 (min window tokens.length)) / step + 1 ∧
      rows.map (fun r => (r.start, r.endIdx)) =
        (List.range' 0
            ((tokens.length - max 2 (min window tokens.length)) / step + 1)
            step).map
          (fun i => (i, i + max 2 (min window tokens.length))) := by
  have hnlt : ¬ tokens.length < 2 := by omega
  have hwle : max 2 (min window tokens.length) ≤ tokens.length := by
    have h2 : min window tokens.length ≤ tokens.length := min_le_right _ _
    omega
  have hstop : 1 ≤ tokens.length - max 2 (min window tokens.length) + 1 := by
    omega
  obtain ⟨rows, hrows, hall⟩ :=
    mapOption_isSome (mkRow scorer tokens (max 2 (min window tokens.length)))
      (List.range' 0
        ((tokens.length - max 2 (min window tokens.length) + 1 - 1) / step + 1)
        step)
      (fun i _ => mkRow_isSome scorer tokens _ i hsc)
  refine ⟨rows, ?_, ?_, ?_⟩
  · simp only [sliding_window_scores]
    rw [if_neg hnlt]
    simp only [Option.bind_eq_bind]
    rw [pythonRange_zero_eq _ step hs hstop, Option.some_bind]
    exact hrows
  · rw [← List.Forall₂.length_eq hall, List.length_range', Nat.add_sub_cancel]
  · rw [forall₂_map_eq _ _ (fun i => (i, i + max 2 (min window tokens.length)))
      _ _ hall (fun a r h => mkRow_inv scorer tokens _ a r h),
      Nat.add_sub_cancel]

/-- A successful scoring step adds `log2(pA / pB)` to the
accumulator. -/
theorem scoreStep_eq (sc : LLRScorer) (V : ℕ) (p : String × String)
    (s : ℝ) (h : stepOk sc V p) :
    scoreStep sc V (some s) p =
      some (s + Real.logb 2 ((bigramRatio sc V p : ℚ) : ℝ)) := by
  obtain ⟨hA, hB, hpos⟩ := h
  simp only [bigramRatio] at hpos
  have hpb : sc.model_B.probVal p.1 p.2 V ≠ 0 := by
    intro h0
    rw [h0, div_zero] at hpos
    exact lt_irrefl 0 hpos
  simp only [scoreStep, Option.bind_eq_bind, Option.some_bind]
  rw [prob_eq_some_probVal _ _ _ _ hA, prob_eq_some_probVal _ _ _ _ hB]
  simp only [Option.some_bind]
  rw [if_neg hpb, if_neg (not_le.mpr hpos)]
  rfl

/-- The scoring loop, started at `s`, adds the sum of the per-bigram
log-ratios when every step succeeds. -/
theorem foldl_scoreStep_eq (sc : LLRScorer) (V : ℕ) :
    ∀ (l : List (String × String)) (s : ℝ),
      (∀ p ∈ l, stepOk sc V p) →
      l.foldl (scoreStep sc V) (some s) =
        some (s + (l.map (fun p =>
          Real.logb 2 ((bigramRatio sc V p : ℚ) : ℝ))).sum) := by
  intro l
  induction l with
  | nil => intro s _; simp
  | cons p l ih =>
    intro s h
    rw [List.foldl_cons, scoreStep_eq sc V p s (h p (List.mem_cons_self p l)),
      ih _ (fun q hq => h q (List.mem_cons_of_mem p hq))]
    rw [List.map_cons, List.sum_cons, add_assoc]

/-- Shared core of the window-score characterisation: when every
per-bigram step is defined, the window score is the sum of the
per-bigram log-ratios. -/
theorem score_window_sum_aux (sc : LLRScorer) (tokens : List String)
    (h : ∀ p ∈ (bracket tokens).dropLast.zip (bracket tokens).tail,
      stepOk sc sc.vocab_union.length p) :
    sc.score_window tokens =
      some ((((bracket tokens).dropLast.zip (bracket tokens).tail).map
        (fun p => Real.logb 2
          ((bigramRatio sc sc.vocab_union.length p : ℚ) : ℝ))).sum) := by
  simp only [LLRScorer.score_window]
  rw [foldl_scoreStep_eq sc sc.vocab_union.length _ 0 h, zero_add]

/-- C2: `score_window` equals the sum, over the consecutive bigrams of
the sentinel-bracketed window, of `log2(probA / probB)` at the shared
vocabulary-union size; and scoring the same window twice yields the
identical result. The hypothesis states that every step is defined,
which holds whenever both models are trained with `k > 0` (see the
totality theorem for C10). -/
theorem score_window_eq_sum_logs (sc : LLRScorer) (tokens : List String)
    (h : ∀ p ∈ (bracket tokens).dropLast.zip (bracket tokens).tail,
      stepOk sc sc.vocab_union.length p) :
    sc.score_window tokens =
      some ((((bracket tokens).dropLast.zip (bracket tokens).tail).map
        (fun p => Real.logb 2
          ((bigramRatio sc sc.vocab_union.length p : ℚ) : ℝ))).sum) ∧
    sc.score_window tokens = sc.score_window tokens :=
  ⟨score_window_sum_aux sc tokens h, rfl⟩

/-- Every window score of a scorer whose two models carry a positive
smoothing constant, with a nonempty vocabulary-union list, is
defined. -/
theorem score_window_isSome_of (sc : LLRScorer)
    (hkA : 0 < sc.model_A.k) (hkB : 0 < sc.model_B.k)
    (hV : 1 ≤ sc.vocab_union.length) :
    ∀ w, (sc.score_window w).isSome := by
  intro w
  have h : ∀ p ∈ (bracket w).dropLast.zip (bracket w).tail,
      stepOk sc sc.vocab_union.length p := by
    intro p _
    exact ⟨ne_of_gt (den_pos sc.model_A p.1 _ hkA hV),
      ne_of_gt (den_pos sc.model_B p.1 _ hkB hV),
      div_pos (probVal_pos sc.model_A p.1 p.2 _ hkA hV)
        (probVal_pos sc.model_B p.1 p.2 _ hkB hV)⟩
  rw [score_window_sum_aux sc w h]
  rfl

/-- Both sentinels always belong to a trained model's vocabulary. -/
theorem sentinels_mem_vocab (tokens : List String) (k : ℚ) :
    "<s>" ∈ (BigramModel.train tokens k).vocab ∧
      "</s>" ∈ (BigramModel.train tokens k).vocab := by
  constructor
  · exact List.mem_toFinset.mpr (List.mem_cons_self _ _)
  · refine List.mem_toFinset.mpr (List.mem_cons_of_mem _ ?_)
    exact List.mem_append_right _ (List.mem_singleton.mpr rfl)

/-- The sorted vocabulary union of the trained scorer has at least two
entries: it contains both (distinct) sentinels. -/
theorem two_le_trainedScorer_vu (tokE tokS : List String) (k eps : ℚ) :
    2 ≤ (trainedScorer tokE tokS k eps).vocab_union.length := by
  show 2 ≤ (((BigramModel.train tokE k).vocab ∪
    (BigramModel.train tokS k).vocab).sort (· ≤ ·)).length
  rw [Finset.length_sort]
  have h1 : "<s>" ∈ (BigramModel.train tokE k).vocab ∪
      (BigramModel.train tokS k).vocab :=
    Finset.mem_union_left _ (sentinels_mem_vocab tokE k).1
  have h2 : "</s>" ∈ (BigramModel.train tokE k).vocab ∪
      (BigramModel.train tokS k).vocab :=
    Finset.mem_union_left _ (sentinels_mem_vocab tokE k).2
  exact Finset.one_lt_card.mpr ⟨"<s>", h1, "</s>", h2, by decide⟩

/-- C10: with both models trained at the same `k > 0` and `V` the size
of the sorted vocabulary union, scoring is total: each vocabulary holds
both sentinels so `V ≥ 2`, every smoothing denominator is strictly
positive, every probability ratio is strictly positive (so its log2 is
defined), and hence every window score is defined. -/
theorem score_window_total_spec (tokE tokS : List String) (k eps : ℚ)
    (hk : 0 < k) :
    ("<s>" ∈ (BigramModel.train tokE k).vocab ∧
      "</s>" ∈ (BigramModel.train tokE k).vocab ∧
      "<s>" ∈ (BigramModel.train tokS k).vocab ∧
      "</s>" ∈ (BigramModel.train tokS k).vocab) ∧
    2 ≤ (trainedScorer tokE tokS k eps).vocab_union.length ∧
    (∀ w1 : String,
      0 < (counterGet (BigramModel.train tokE k).context w1 : ℚ) +
        k * ((trainedScorer tokE tokS k eps).vocab_union.length : ℚ) ∧
      0 < (counterGet (BigramModel.train tokS k).context w1 : ℚ) +
        k * ((trainedScorer tokE tokS k eps).vocab_union.length : ℚ)) ∧
    (∀ w1 w2 : String,
      0 < bigramRatio (trainedScorer tokE tokS k eps)
        (trainedScorer tokE tokS k eps).vocab_union.length (w1, w2)) ∧
    ∀ w, ((trainedScorer tokE tokS k eps).score_window w).isSome := by
  have hV : 1 ≤ (trainedScorer tokE tokS k eps).vocab_union.length :=
    le_trans (by norm_num) (two_le_trainedScorer_vu tokE tokS k eps)
  refine ⟨⟨(sentinels_mem_vocab tokE k).1, (sentinels_mem_vocab tokE k).2,
    (sentinels_mem_vocab tokS k).1, (sentinels_mem_vocab tokS k).2⟩,
    two_le_trainedScorer_vu tokE tokS k eps, ?_, ?_, ?_⟩
  · intro w1
    exact ⟨den_pos (BigramModel.train tokE k) w1 _ hk hV,
      den_pos (BigramModel.train tokS k) w1 _ hk hV⟩
  · intro w1 w2
    exact div_pos (probVal_pos (BigramModel.train tokE k) w1 w2 _ hk hV)
      (probVal_pos (BigramModel.train tokS k) w1 w2 _ hk hV)
  · exact score_window_isSome_of (trainedScorer tokE tokS k eps) hk hk hV

/-- Witness for C10 at concrete training corpora and `k = 1`. -/
theorem score_window_total_spec_witness :
    (0 : ℚ) < 1 ∧
      ∀ w, ((trainedScorer ["a"] ["b"] 1 (1 / 4)).score_window w).isSome :=
  ⟨by norm_num,
    (score_window_total_spec ["a"] ["b"] 1 (1 / 4) (by norm_num)).2.2.2.2⟩

/-- C3: with an effective window (`2 ≤ window ≤ n`), a positive step and
a total scorer, the scan succeeds and emits exactly
`⌊(n - window) / step⌋ + 1` reports, at starts `0, step, 2*step, …`,
each spanning exactly `window` positions. -/
theorem scan_count_and_indices (tokens : List String) (scorer : LLRScorer)
    (window step : ℕ) (hw2 : 2 ≤ window) (hwn : window ≤ tokens.length)
    (hs : 1 ≤ step) (hsc : ∀ win, (scorer.score_window win).isSome) :
    ∃ rows, sliding_window_scores tokens scorer window step = some rows ∧
      rows.length = (tokens.length - window) / step + 1 ∧
      rows.map (fun r => (r.start, r.endIdx)) =
        (List.range' 0 ((tokens.length - window) / step + 1) step).map
          (fun i => (i, i + window)) := by
  have hn : 2 ≤ tokens.length := le_trans hw2 hwn
  have hmax : max 2 (min window tokens.length) = window := by
    rw [min_eq_left hwn]
    exact max_eq_right hw2
  obtain ⟨rows, h1, h2, h3⟩ := scan_spec tokens scorer window step hn hs hsc
  rw [hmax] at h2 h3
  exact ⟨rows, h1, h2, h3⟩

/-- Witness for C3: three tokens, window 2, step 1 give the two reports
`[0,2)` and `[1,3)`. -/
theorem scan_count_and_indices_witness :
    (2 ≤ 2) ∧ (2 ≤ (["a", "b", "c"] : List String).length) ∧ (1 ≤ 1) ∧
      ∃ rows, sliding_window_scores ["a", "b", "c"]
          (trainedScorer ["a"] ["b"] 1 (1 / 4)) 2 1 = some rows ∧
        rows.length = 2 ∧
        rows.map (fun r => (r.start, r.endIdx)) = [(0, 2), (1, 3)] := by
  have hsc : ∀ win,
      ((trainedScorer ["a"] ["b"] 1 (1 / 4)).score_window win).isSome :=
    score_window_isSome_of _ (by show (0 : ℚ) < 1; norm_num)
      (by show (0 : ℚ) < 1; norm_num)
      (le_trans (by norm_num) (two_le_trainedScorer_vu ["a"] ["b"] 1 (1 / 4)))
  refine ⟨by decide, by decide, by decide, ?_⟩
  obtain ⟨rows, h1, h2, h3⟩ := scan_count_and_indices ["a", "b", "c"]
    (trainedScorer ["a"] ["b"] 1 (1 / 4)) 2 1 (by decide) (by decide)
    (by decide) hsc
  exact ⟨rows, h1, h2.trans (by decide), h3.trans (by decide)⟩

/-- C4: fewer than 2 tokens give an empty report list, not an error; and
with `2 ≤ n < requestedWindow` the effective window is clamped to `n`
and exactly one report `[0, n)` is produced. -/
theorem scan_short_input_policy (tokens : List String) (scorer : LLRScorer)
    (window step : ℕ) :
    (tokens.length < 2 →
      sliding_window_scores tokens scorer window step = some []) ∧
    (2 ≤ tokens.length → tokens.length < window → 1 ≤ step →
      (∀ win, (scorer.score_window win).isSome) →
      max 2 (min window tokens.length) = tokens.length ∧
      ∃ rows, sliding_window_scores tokens scorer window step = some rows ∧
        rows.length = 1 ∧
        rows.map (fun r => (r.start, r.endIdx)) = [(0, tokens.length)]) := by
  constructor
  · intro h
    simp only [sliding_window_scores]
    rw [if_pos h]
  · intro hn hnw hs hsc
    have hmax : max 2 (min window tokens.length) = tokens.length := by
      rw [min_eq_right (le_of_lt hnw)]
      exact max_eq_right hn
    refine ⟨hmax, ?_⟩
    obtain ⟨rows, h1, h2, h3⟩ := scan_spec tokens scorer window step hn hs hsc
    rw [hmax] at h2 h3
    refine ⟨rows, h1, ?_, ?_⟩
    · rw [h2, Nat.sub_self, Nat.zero_div]
    · rw [h3, Nat.sub_self, Nat.zero_div]
      simp [List.range']

/-- Witness for C4: a single token yields `some []`; two tokens with
requested window 5 yield exactly the report `[0, 2)`. -/
theorem scan_short_input_policy_witness :
    sliding_window_scores ["a"] (trainedScorer ["a"] ["b"] 1 (1 / 4)) 20 1 =
        some [] ∧
      (max 2 (min 5 (["a", "b"] : List String).length) =
          (["a", "b"] : List String).length ∧
        ∃ rows, sliding_window_scores ["a", "b"]
            (trainedScorer ["a"] ["b"] 1 (1 / 4)) 5 1 = some rows ∧
          rows.length = 1 ∧
          rows.map (fun r => (r.start, r.endIdx)) =
            [(0, (["a", "b"] : List String).length)]) := by
  have hsc : ∀ win,
      ((trainedScorer ["a"] ["b"] 1 (1 / 4)).score_window win).isSome :=
    score_window_isSome_of _ (by show (0 : ℚ) < 1; norm_num)
      (by show (0 : ℚ) < 1; norm_num)
      (le_trans (by norm_num) (two_le_trainedScorer_vu ["a"] ["b"] 1 (1 / 4)))
  exact ⟨(scan_short_input_policy ["a"] _ 20 1).1 (by decide),
    (scan_short_input_policy ["a", "b"] _ 5 1).2 (by decide) (by decide)
      (by decide) hsc⟩

/-- Witness for C2 at a concrete scorer and window: every step is
defined because both models were trained with `k = 1 > 0`. -/
theorem score_window_eq_sum_logs_witness :
    (∀ p ∈ (bracket ["z"]).dropLast.zip (bracket ["z"]).tail,
      stepOk (trainedScorer ["a"] ["b"] 1 (1 / 4))
        (trainedScorer ["a"] ["b"] 1 (1 / 4)).vocab_union.length p) ∧
    (trainedScorer ["a"] ["b"] 1 (1 / 4)).score_window ["z"] =
      some ((((bracket ["z"]).dropLast.zip (bracket ["z"]).tail).map
        (fun p => Real.logb 2
          ((bigramRatio (trainedScorer ["a"] ["b"] 1 (1 / 4))
            (trainedScorer ["a"] ["b"] 1 (1 / 4)).vocab_union.length p :
              ℚ) : ℝ))).sum) := by
  have hk : (0 : ℚ) < (trainedScorer ["a"] ["b"] 1 (1 / 4)).model_A.k := by
    show (0 : ℚ) < 1
    norm_num
  have hk2 : (0 : ℚ) < (trainedScorer ["a"] ["b"] 1 (1 / 4)).model_B.k := by
    show (0 : ℚ) < 1
    norm_num
  have hV : 1 ≤ (trainedScorer ["a"] ["b"] 1 (1 / 4)).vocab_union.length :=
    le_trans (by norm_num) (two_le_trainedScorer_vu ["a"] ["b"] 1 (1 / 4))
  have h : ∀ p ∈ (bracket ["z"]).dropLast.zip (bracket ["z"]).tail,
      stepOk (trainedScorer ["a"] ["b"] 1 (1 / 4))
        (trainedScorer ["a"] ["b"] 1 (1 / 4)).vocab_union.length p :=
    fun p _ =>
      ⟨ne_of_gt (den_pos _ p.1 _ hk hV), ne_of_gt (den_pos _ p.1 _ hk2 hV),
        div_pos (probVal_pos _ p.1 p.2 _ hk hV)
          (probVal_pos _ p.1 p.2 _ hk2 hV)⟩
  exact ⟨h, (score_window_eq_sum_logs (trainedScorer ["a"] ["b"] 1 (1 / 4))
    ["z"] h).1⟩

/-- Effect of one window's inner accumulation loop on one position: the
score is added (and the count bumped) exactly when the position lies in
`[lo, lo + len)`. -/
theorem accum_range (v : ℝ) :
    ∀ (len lo : ℕ) (f : (ℕ → ℝ) × (ℕ → ℕ)) (j : ℕ),
      ((List.range' lo len).foldl (accumStep v) f).1 j =
        f.1 j + (if lo ≤ j ∧ j < lo + len then v else 0) ∧
      ((List.range' lo len).foldl (accumStep v) f).2 j =
        f.2 j + (if lo ≤ j ∧ j < lo + len then 1 else 0) := by
  intro len
  induction len with
  | zero =>
    intro lo f j
    have hc : ¬ (lo ≤ j ∧ j < lo + 0) := by omega
    simp [hc]
  | succ len ih =>
    intro lo f j
    have hcons : List.range' lo (len + 1) = lo :: List.range' (lo + 1) len :=
      rfl
    rw [hcons, List.foldl_cons]
    constructor
    · rw [(ih (lo + 1) (accumStep v f lo) j).1]
      simp only [accumStep]
      by_cases hj : j = lo
      · subst hj
        rw [Function.update_same]
        have hc1 : ¬ (j + 1 ≤ j ∧ j < j + 1 + len) := by omega
        have hc2 : j ≤ j ∧ j < j + (len + 1) := by omega
        rw [if_neg hc1, if_pos hc2, add_zero]
      · rw [Function.update_noteq hj]
        by_cases hc : lo + 1 ≤ j ∧ j < lo + 1 + len
        · have hc2 : lo ≤ j ∧ j < lo + (len + 1) := by omega
          rw [if_pos hc, if_pos hc2]
        · have hc2 : ¬ (lo ≤ j ∧ j < lo + (len + 1)) := by omega
          rw [if_neg hc, if_neg hc2]
    · rw [(ih (lo + 1) (accumStep v f lo) j).2]
      simp only [accumStep]
      by_cases hj : j = lo
      · subst hj
        rw [Function.update_same]
        have hc1 : ¬ (j + 1 ≤ j ∧ j < j + 1 + len) := by omega
        have hc2 : j ≤ j ∧ j < j + (len + 1) := by omega
        rw [if_neg hc1, if_pos hc2, add_zero]
      · rw [Function.update_noteq hj]
        by_cases hc : lo + 1 ≤ j ∧ j < lo + 1 + len
        · have hc2 : lo ≤ j ∧ j < lo + (len + 1) := by omega
          rw [if_pos hc, if_pos hc2]
        · have hc2 : ¬ (lo ≤ j ∧ j < lo + (len + 1)) := by omega
          rw [if_neg hc, if_neg hc2]

/-- Effect of the whole accumulation loop on one position: the sum (and
count) of the scores of exactly the covering windows. -/
theorem accum_windows :
    ∀ (windows : List WindowReport) (f : (ℕ → ℝ) × (ℕ → ℕ)) (j : ℕ),
      ((windows.foldl (fun sc r =>
          (List.range' r.start (r.endIdx - r.start)).foldl
            (accumStep r.score) sc) f).1 j =
        f.1 j + ((windows.filter
          (fun r => decide (r.start ≤ j ∧ j < r.endIdx))).map
            WindowReport.score).sum) ∧
      ((windows.foldl (fun sc r =>
          (List.range' r.start (r.endIdx - r.start)).foldl
            (accumStep r.score) sc) f).2 j =
        f.2 j + (windows.filter
          (fun r => decide (r.start ≤ j ∧ j < r.endIdx))).length) := by
  intro windows
  induction windows with
  | nil => intro f j; simp
  | cons r ws ih =>
    intro f j
    rw [List.foldl_cons]
    have harange := accum_range r.score (r.endIdx - r.start) r.start f j
    constructor
    · rw [(ih _ j).1, harange.1, List.filter_cons]
      by_cases hc : r.start ≤ j ∧ j < r.endIdx
      · have hc' : r.start ≤ j ∧ j < r.start + (r.endIdx - r.start) := by
          omega
        rw [if_pos hc']
        simp only [hc, and_self, decide_True, if_true, List.map_cons,
          List.sum_cons]
        ring
      · have hc' : ¬ (r.start ≤ j ∧ j < r.start + (r.endIdx - r.start)) := by
          omega
        rw [if_neg hc']
        simp only [hc, decide_False, Bool.false_eq_true, if_false, add_zero]
    · rw [(ih _ j).2, harange.2, List.filter_cons]
      by_cases hc : r.start ≤ j ∧ j < r.endIdx
      · have hc' : r.start ≤ j ∧ j < r.start + (r.endIdx - r.start) := by
          omega
        rw [if_pos hc']
        simp only [hc, and_self, decide_True, if_true, List.length_cons]
        omega
      · have hc' : ¬ (r.start ≤ j ∧ j < r.start + (r.endIdx - r.start)) := by
          omega
        rw [if_neg hc']
        simp only [hc, decide_False, Bool.false_eq_true, if_false, add_zero]

/-- A zero score lies inside the (nonnegative) neutral band, so it is
labelled `NEITHER`. -/
theorem label_zero (sc : LLRScorer) (he : 0 ≤ sc.eps_neither) :
    sc.label 0 = "NEITHER" := by
  have heR : (0 : ℝ) ≤ ((sc.eps_neither : ℚ) : ℝ) := by exact_mod_cast he
  unfold LLRScorer.label
  rw [if_neg (by linarith), if_neg (by linarith)]

/-- Indexing a map over `List.range`. -/
theorem getD_map_range {α : Type} (n i : ℕ) (hi : i < n) (g : ℕ → α)
    (d : α) : (((List.range n).map g).getD i d) = g i := by
  rw [List.getD_eq_getElem?_getD, List.getElem?_map, List.getElem?_range hi]
  rfl

/-- C6: `word_level_labels` returns one label per token; each position's
label is `label` of the mean of the scores of the windows covering it,
and a position covered by no window gets mean 0 and hence `NEITHER`.
The first hypothesis is the report well-formedness bound under which the
Python list writes `sums[i] += …` are in range (otherwise the code dies
with `IndexError`); the second is the configuration constraint
`epsNeither ≥ 0`. -/
theorem word_level_labels_spec (tokens : List String)
    (windows : List WindowReport) (scorer : LLRScorer)
    (hval : ∀ r ∈ windows, r.endIdx ≤ tokens.length)
    (heps : 0 ≤ scorer.eps_neither) :
    (word_level_labels tokens windows scorer).length = tokens.length ∧
    ∀ i, i < tokens.length →
      ((word_level_labels tokens windows scorer).getD i "" =
        scorer.label
          (if (windows.filter
                (fun r => decide (r.start ≤ i ∧ i < r.endIdx))).length ≠ 0
            then ((windows.filter
                (fun r => decide (r.start ≤ i ∧ i < r.endIdx))).map
                  WindowReport.score).sum /
              (((windows.filter
                (fun r => decide (r.start ≤ i ∧ i < r.endIdx))).length :
                  ℕ) : ℝ)
            else 0)) ∧
      ((windows.filter
          (fun r => decide (r.start ≤ i ∧ i < r.endIdx))).length = 0 →
        (word_level_labels tokens windows scorer).getD i "" = "NEITHER") := by
  by_cases hn : tokens.length = 0
  · refine ⟨?_, ?_⟩
    · simp only [word_level_labels, hn, if_true]
      rfl
    · intro i hi
      omega
  · have hlen : (word_level_labels tokens windows scorer).length
        = tokens.length := by
      simp only [word_level_labels, hn, if_false]
      rw [List.length_map, List.length_range]
    refine ⟨hlen, ?_⟩
    intro i hi
    have hvalue : (word_level_labels tokens windows scorer).getD i "" =
        scorer.label
          (if (windows.filter
                (fun r => decide (r.start ≤ i ∧ i < r.endIdx))).length ≠ 0
            then ((windows.filter
                (fun r => decide (r.start ≤ i ∧ i < r.endIdx))).map
                  WindowReport.score).sum /
              (((windows.filter
                (fun r => decide (r.start ≤ i ∧ i < r.endIdx))).length :
                  ℕ) : ℝ)
            else 0) := by
      simp only [word_level_labels, hn, if_false]
      rw [getD_map_range tokens.length i hi]
      have hsum := (accum_windows windows
        (fun _ => (0 : ℝ), fun _ => (0 : ℕ)) i).1
      have hcnt := (accum_windows windows
        (fun _ => (0 : ℝ), fun _ => (0 : ℕ)) i).2
      rw [hsum, hcnt]
      rw [zero_add, zero_add]
    refine ⟨hvalue, ?_⟩
    intro hzero
    rw [hvalue, if_neg (by omega)]
    exact label_zero scorer heps

/-- Witness for C6: two tokens, one window covering only position 0
with score 1; position 0 is labelled from mean 1, position 1 is
uncovered and gets `NEITHER`. -/
theorem word_level_labels_spec_witness :
    (∀ r ∈ [WindowReport.mk 0 1 1 "EMINESCU" "a"],
      r.endIdx ≤ (["a", "b"] : List String).length) ∧
    (0 : ℚ) ≤ (trainedScorer ["a"] ["b"] 1 (1 / 4)).eps_neither ∧
    ((word_level_labels ["a", "b"] [WindowReport.mk 0 1 1 "EMINESCU" "a"]
        (trainedScorer ["a"] ["b"] 1 (1 / 4))).length =
      (["a", "b"] : List String).length ∧
    ∀ i, i < (["a", "b"] : List String).length →
      ((word_level_labels ["a", "b"] [WindowReport.mk 0 1 1 "EMINESCU" "a"]
          (trainedScorer ["a"] ["b"] 1 (1 / 4))).getD i "" =
        (trainedScorer ["a"] ["b"] 1 (1 / 4)).label
          (if (([WindowReport.mk 0 1 1 "EMINESCU" "a"].filter
                (fun r => decide (r.start ≤ i ∧ i < r.endIdx))).length ≠ 0)
            then ((([WindowReport.mk 0 1 1 "EMINESCU" "a"].filter
                (fun r => decide (r.start ≤ i ∧ i < r.endIdx))).map
                  WindowReport.score).sum) /
              ((([WindowReport.mk 0 1 1 "EMINESCU" "a"].filter
                (fun r => decide (r.start ≤ i ∧ i < r.endIdx))).length :
                  ℕ) : ℝ)
            else 0)) ∧
      (([WindowReport.mk 0 1 1 "EMINESCU" "a"].filter
          (fun r => decide (r.start ≤ i ∧ i < r.endIdx))).length = 0 →
        (word_level_labels ["a", "b"] [WindowReport.mk 0 1 1 "EMINESCU" "a"]
          (trainedScorer ["a"] ["b"] 1 (1 / 4))).getD i "" = "NEITHER")) := by
  have hval : ∀ r ∈ [WindowReport.mk 0 1 1 "EMINESCU" "a"],
      r.endIdx ≤ (["a", "b"] : List String).length := by
    intro r hr
    rw [List.mem_singleton] at hr
    subst hr
    decide
  have heps : (0 : ℚ) ≤ (trainedScorer ["a"] ["b"] 1 (1 / 4)).eps_neither := by
    show (0 : ℚ) ≤ 1 / 4
    norm_num
  exact ⟨hval, heps, word_level_labels_spec ["a", "b"]
    [WindowReport.mk 0 1 1 "EMINESCU" "a"]
    (trainedScorer ["a"] ["b"] 1 (1 / 4)) hval heps⟩

/-- The segmentation loop from index `j` on, followed by the final
append, equals the structural recursion `buildFrom`. -/
theorem foldl_segStep_eq_buildFrom (tokens labels : List String) :
    ∀ (m j : ℕ) (segs : List Segment) (cur : String) (start : ℕ),
      j + m = tokens.length →
      ((List.range' j m).foldl (segStep tokens labels) (segs, cur, start)).1
        ++ [{ label :=
              ((List.range' j m).foldl (segStep tokens labels)
                (segs, cur, start)).2.1,
              start :=
              ((List.range' j m).foldl (segStep tokens labels)
                (segs, cur, start)).2.2,
              endIdx := tokens.length,
              text := " ".intercalate (tokens.drop
                (((List.range' j m).foldl (segStep tokens labels)
                  (segs, cur, start)).2.2)) }] =
      segs ++ buildFrom tokens labels cur start j := by
  intro m
  induction m with
  | zero =>
    intro j segs cur start hj
    have hnj : ¬ j < tokens.length := by omega
    rw [buildFrom, dif_neg hnj]
    rfl
  | succ m ih =>
    intro j segs cur start hj
    have hjlt : j < tokens.length := by omega
    have hcons : List.range' j (m + 1) = j :: List.range' (j + 1) m := rfl
    rw [hcons, List.foldl_cons, buildFrom, dif_pos hjlt]
    by_cases hne : labels.getD j "" ≠ cur
    · have hstep : segStep tokens labels (segs, cur, start) j =
          (segs ++ [Segment.mk cur start j
            (" ".intercalate ((tokens.drop start).take (j - start)))],
           labels.getD j "", j) := by
        simp only [segStep]
        rw [if_pos hne]
      rw [hstep, if_pos hne, ih (j + 1) _ _ _ (by omega)]
      rw [List.append_assoc]
      rfl
    · have hstep : segStep tokens labels (segs, cur, start) j =
          (segs, cur, start) := by
        simp only [segStep]
        rw [if_neg hne]
      rw [hstep, if_neg hne, ih (j + 1) _ _ _ (by omega)]

/-- `segments` on a nonempty token list is the structural recursion
started with the first label. -/
theorem segments_eq_buildFrom (tokens labels : List String)
    (h : tokens ≠ []) :
    segments tokens labels = buildFrom tokens labels (labels.getD 0 "") 0 1 := by
  have hlen : 1 ≤ tokens.length := List.length_pos.mpr h
  have heq := foldl_segStep_eq_buildFrom tokens labels (tokens.length - 1) 1
    [] (labels.getD 0 "") 0 (by omega)
  rw [List.nil_append] at heq
  simp only [segments, if_neg h]
  exact heq

/-- The structural segmentation of `[start, n)` tiles `[start, n)`. -/
theorem buildFrom_chain (tokens labels : List String) :
    ∀ (m j : ℕ) (cur : String) (start : ℕ),
      j + m = tokens.length → start < j →
      isChain start (buildFrom tokens labels cur start j) tokens.length := by
  intro m
  induction m with
  | zero =>
    intro j cur start hj hs
    have hnj : ¬ j < tokens.length := by omega
    rw [buildFrom, dif_neg hnj]
    exact ⟨rfl, by show start < tokens.length; omega, rfl⟩
  | succ m ih =>
    intro j cur start hj hs
    have hjlt : j < tokens.length := by omega
    rw [buildFrom, dif_pos hjlt]
    by_cases hne : labels.getD j "" ≠ cur
    · rw [if_pos hne]
      exact ⟨rfl, hs, ih (j + 1) _ j (by omega) (by omega)⟩
    · rw [if_neg hne]
      exact ih (j + 1) cur start (by omega) (by omega)

/-- Concatenating the token ranges of the structural segmentation
reconstructs the token suffix from `start`. -/
theorem buildFrom_join (tokens labels : List String) :
    ∀ (m j : ℕ) (cur : String) (start : ℕ),
      j + m = tokens.length → start ≤ j →
      ((buildFrom tokens labels cur start j).map
        (fun s => (tokens.drop s.start).take (s.endIdx - s.start))).flatten =
        tokens.drop start := by
  intro m
  induction m with
  | zero =>
    intro j cur start hj hs
    have hnj : ¬ j < tokens.length := by omega
    rw [buildFrom, dif_neg hnj]
    simp only [List.map_cons, List.map_nil, List.flatten_cons, List.flatten_nil,
      List.append_nil]
    have hlen : (tokens.drop start).length = tokens.length - start :=
      List.length_drop start tokens
    rw [← hlen, List.take_length]
  | succ m ih =>
    intro j cur start hj hs
    have hjlt : j < tokens.length := by omega
    rw [buildFrom, dif_pos hjlt]
    by_cases hne : labels.getD j "" ≠ cur
    · rw [if_pos hne]
      simp only [List.map_cons, List.flatten_cons]
      rw [ih (j + 1) _ j (by omega) (by omega)]
      have hdj : tokens.drop j = (tokens.drop start).drop (j - start) := by
        rw [List.drop_drop]
        congr 1
        omega
      rw [hdj, List.take_append_drop]
    · rw [if_neg hne]
      exact ih (j + 1) cur start (by omega) (by omega)

/-- The number of segments produced from index `j` on is one more than
the number of adjacent label changes at positions `≥ j`. -/
theorem buildFrom_count (tokens labels : List String)
    (hlen : labels.length = tokens.length) :
    ∀ (m j : ℕ) (cur : String) (start : ℕ),
      j + m = tokens.length → 1 ≤ j → cur = labels.getD (j - 1) "" →
      (buildFrom tokens labels cur start j).length =
        1 + ((labels.drop (j - 1)).zip (labels.drop j)).countP
          (fun p => decide (p.1 ≠ p.2)) := by
  intro m
  induction m with
  | zero =>
    intro j cur start hj h1 hcur
    have hnj : ¬ j < tokens.length := by omega
    rw [buildFrom, dif_neg hnj]
    have hdj : labels.drop j = [] := by
      apply List.drop_eq_nil_of_le
      omega
    rw [hdj, List.zip_nil_right]
    rfl
  | succ m ih =>
    intro j cur start hj h1 hcur
    have hjlt : j < tokens.length := by omega
    have hj1 : j - 1 < labels.length := by omega
    have hjl : j < labels.length := by omega
    have hj11 : j - 1 + 1 = j := by omega
    have hd1 : labels.drop (j - 1) =
        labels.getD (j - 1) "" :: labels.drop j := by
      rw [List.drop_eq_getElem_cons hj1, hj11,
        List.getD_eq_getElem labels "" hj1]
    have hd2 : labels.drop j = labels.getD j "" :: labels.drop (j + 1) := by
      rw [List.getD_eq_getElem labels "" hjl,
        List.drop_eq_getElem_cons hjl]
    rw [buildFrom, dif_pos hjlt]
    by_cases hne : labels.getD j "" ≠ cur
    · rw [if_pos hne, List.length_cons]
      rw [ih (j + 1) _ j (by omega) (by omega) (by rw [Nat.add_sub_cancel])]
      rw [Nat.add_sub_cancel, hd1, hd2, List.zip_cons_cons, List.countP_cons]
      have hdec : decide ((labels.getD (j - 1) "", labels.getD j "").1 ≠
          (labels.getD (j - 1) "", labels.getD j "").2) = true := by
        rw [decide_eq_true_eq]
        rw [← hcur]
        exact Ne.symm hne
      rw [hdec, if_pos rfl]
      omega
    · rw [if_neg hne]
      rw [not_not] at hne
      rw [ih (j + 1) cur start (by omega) (by omega)
        (by rw [Nat.add_sub_cancel, ← hne])]
      rw [Nat.add_sub_cancel, hd1, hd2, List.zip_cons_cons, List.countP_cons]
      have hdec : decide ((labels.getD (j - 1) "", labels.getD j "").1 ≠
          (labels.getD (j - 1) "", labels.getD j "").2) = false := by
        rw [decide_eq_false_iff_not]
        rw [← hcur, hne]
        exact fun hfalse => hfalse rfl
      rw [hdec, if_neg Bool.false_ne_true]
      omega

/-- C7: on a nonempty token list with one label per token, the segments
are contiguous, nonoverlapping, in left-to-right order and cover every
position exactly once (`isChain 0 … n`); concatenating the segment token
ranges in order rebuilds the token list; and the number of segments is
one more than the number of adjacent label changes. -/
theorem segments_spec (tokens labels : List String) (htok : tokens ≠ [])
    (hlen : labels.length = tokens.length) :
    isChain 0 (segments tokens labels) tokens.length ∧
    ((segments tokens labels).map
      (fun s => (tokens.drop s.start).take (s.endIdx - s.start))).flatten =
      tokens ∧
    (segments tokens labels).length =
      1 + ((labels.zip labels.tail).countP (fun p => decide (p.1 ≠ p.2))) := by
  have hlen1 : 1 ≤ tokens.length := List.length_pos.mpr htok
  rw [segments_eq_buildFrom tokens labels htok]
  refine ⟨?_, ?_, ?_⟩
  · exact buildFrom_chain tokens labels (tokens.length - 1) 1 _ 0 (by omega)
      (by omega)
  · have h := buildFrom_join tokens labels (tokens.length - 1) 1
      (labels.getD 0 "") 0 (by omega) (by omega)
    rw [List.drop_zero] at h
    exact h
  · have h := buildFrom_count tokens labels hlen (tokens.length - 1) 1
      (labels.getD 0 "") 0 (by omega) (by omega) rfl
    rw [List.drop_one] at h
    have h0 : labels.drop (1 - 1) = labels := List.drop_zero labels
    rw [h0] at h
    exact h

/-- Witness for C7 on three tokens labelled `X, X, Y`: two segments. -/
theorem segments_spec_witness :
    ((["a", "b", "c"] : List String) ≠ []) ∧
    (["X", "X", "Y"] : List String).length =
      (["a", "b", "c"] : List String).length ∧
    (isChain 0 (segments ["a", "b", "c"] ["X", "X", "Y"])
      (["a", "b", "c"] : List String).length ∧
    ((segments ["a", "b", "c"] ["X", "X", "Y"]).map
      (fun s => ((["a", "b", "c"] : List String).drop s.start).take
        (s.endIdx - s.start))).flatten = ["a", "b", "c"] ∧
    (segments ["a", "b", "c"] ["X", "X", "Y"]).length =
      1 + (((["X", "X", "Y"] : List String).zip
        (["X", "X", "Y"] : List String).tail).countP
          (fun p => decide (p.1 ≠ p.2)))) :=
  ⟨by decide, by decide,
    segments_spec ["a", "b", "c"] ["X", "X", "Y"] (by decide) (by decide)⟩

/-- A row is produced at `i` as soon as the score of the window content
at `i` is defined. -/
theorem mkRow_isSome_of (sc : LLRScorer) (tokens : List String) (w i : ℕ)
    (h : (sc.score_window ((tokens.drop i).take w)).isSome) :
    (mkRow sc tokens w i).isSome := by
  simp only [mkRow]
  obtain ⟨s, hs⟩ := Option.isSome_iff_exists.mp h
  rw [hs]
  rfl

/-- The scan succeeds when the score of each window content is
defined. -/
theorem scan_isSome_of (tokens : List String) (scorer : LLRScorer)
    (window step : ℕ) (hn : 2 ≤ tokens.length) (hs : 1 ≤ step)
    (h : ∀ i, (scorer.score_window
      ((tokens.drop i).take (max 2 (min window tokens.length)))).isSome) :
    (sliding_window_scores tokens scorer window step).isSome := by
  simp only [sliding_window_scores]
  rw [if_neg (by omega)]
  have hstop : 1 ≤ tokens.length - max 2 (min window tokens.length) + 1 := by
    omega
  simp only [Option.bind_eq_bind]
  rw [pythonRange_zero_eq _ step hs hstop, Option.some_bind]
  obtain ⟨l', hl', _⟩ := mapOption_isSome
    (mkRow scorer tokens (max 2 (min window tokens.length))) _
    (fun i _ => mkRow_isSome_of scorer tokens _ i (h i))
  rw [hl']
  rfl

/-- The pipeline completes as soon as its scan completes (aggregation
and segmentation are total). -/
theorem run_analysis_isSome_of (tokE tokS tokA : List String)
    (window step : ℕ) (k eps : ℚ)
    (h : (sliding_window_scores tokA (trainedScorer tokE tokS k eps)
      (if tokA = [] then window else max 2 (min window tokA.length))
      step).isSome) :
    (run_analysis tokE tokS tokA window step k eps).isSome := by
  simp only [run_analysis, Option.bind_eq_bind]
  obtain ⟨rows, hrows⟩ := Option.isSome_iff_exists.mp h
  rw [hrows, Option.some_bind]
  rfl

/-- With `k = -1` (a malformed configuration) and query bigrams unseen
by either model, both the numerator and the denominator of each
smoothed probability are negative, so every step of the scoring loop is
(accidentally) well defined. -/
theorem neg_k_key (w1 w2 : String)
    (hca : counterGet (BigramModel.train ["a"] (-1)).context w1 ≤ 1)
    (hcb : counterGet (BigramModel.train ["b"] (-1)).context w1 ≤ 1)
    (hba : counterGet (BigramModel.train ["a"] (-1)).bigram (w1, w2) = 0)
    (hbb : counterGet (BigramModel.train ["b"] (-1)).bigram (w1, w2) = 0) :
    stepOk (trainedScorer ["a"] ["b"] (-1) (1 / 4))
      (trainedScorer ["a"] ["b"] (-1) (1 / 4)).vocab_union.length
      (w1, w2) := by
  have hV2 : 2 ≤ (trainedScorer ["a"] ["b"] (-1) (1 / 4)).vocab_union.length :=
    two_le_trainedScorer_vu ["a"] ["b"] (-1) (1 / 4)
  have hVq : (2 : ℚ) ≤
      ((trainedScorer ["a"] ["b"] (-1) (1 / 4)).vocab_union.length : ℚ) := by
    exact_mod_cast hV2
  have hcaq : (counterGet (BigramModel.train ["a"] (-1)).context w1 : ℚ) ≤ 1 :=
    by exact_mod_cast hca
  have hcbq : (counterGet (BigramModel.train ["b"] (-1)).context w1 : ℚ) ≤ 1 :=
    by exact_mod_cast hcb
  have hdenA : (counterGet (BigramModel.train ["a"] (-1)).context w1 : ℚ) +
      (-1) * ((trainedScorer ["a"] ["b"] (-1) (1 / 4)).vocab_union.length : ℚ)
      < 0 := by linarith
  have hdenB : (counterGet (BigramModel.train ["b"] (-1)).context w1 : ℚ) +
      (-1) * ((trainedScorer ["a"] ["b"] (-1) (1 / 4)).vocab_union.length : ℚ)
      < 0 := by linarith
  have hpA : 0 < (BigramModel.train ["a"] (-1)).probVal w1 w2
      (trainedScorer ["a"] ["b"] (-1) (1 / 4)).vocab_union.length := by
    simp only [BigramModel.probVal]
    rw [hba]
    apply div_pos_of_neg_of_neg
    · show ((0 : ℕ) : ℚ) + (-1) < 0
      norm_num
    · exact hdenA
  have hpB : 0 < (BigramModel.train ["b"] (-1)).probVal w1 w2
      (trainedScorer ["a"] ["b"] (-1) (1 / 4)).vocab_union.length := by
    simp only [BigramModel.probVal]
    rw [hbb]
    apply div_pos_of_neg_of_neg
    · show ((0 : ℕ) : ℚ) + (-1) < 0
      norm_num
    · exact hdenB
  exact ⟨ne_of_lt hdenA, ne_of_lt hdenB, div_pos hpA hpB⟩

/-- Every window made only of the token `z` (unseen by either model) is
scored without error by the `k = -1` scorer. -/
theorem zonly_window_isSome (win : List String)
    (hz : ∀ t ∈ win, t = "z") :
    ((trainedScorer ["a"] ["b"] (-1) (1 / 4)).score_window win).isSome := by
  have h : ∀ p ∈ (bracket win).dropLast.zip (bracket win).tail,
      stepOk (trainedScorer ["a"] ["b"] (-1) (1 / 4))
        (trainedScorer ["a"] ["b"] (-1) (1 / 4)).vocab_union.length p := by
    intro p hp
    obtain ⟨x, y⟩ := p
    obtain ⟨h1, h2⟩ := List.of_mem_zip hp
    have hd : (bracket win).dropLast = "<s>" :: win := by
      show ("<s>" :: (win ++ ["</s>"])).dropLast = "<s>" :: win
      rw [← List.cons_append, List.dropLast_concat]
    have ht : (bracket win).tail = win ++ ["</s>"] := rfl
    rw [hd] at h1
    rw [ht] at h2
    have h1' : x = "<s>" ∨ x = "z" := by
      rcases List.mem_cons.mp h1 with h | h
      · exact Or.inl h
      · exact Or.inr (hz _ h)
    have h2' : y = "z" ∨ y = "</s>" := by
      rcases List.mem_append.mp h2 with h | h
      · exact Or.inl (hz _ h)
      · exact Or.inr (List.mem_singleton.mp h)
    rcases h1' with ha | ha <;> rcases h2' with hb | hb <;> subst ha <;>
      subst hb <;>
      exact neg_k_key _ _ (by decide) (by decide) (by decide) (by decide)
  rw [score_window_sum_aux _ _ h]
  rfl

/-- C9 counterexample: the configuration `k = -1 ≤ 0` is malformed, yet
the pipeline is not rejected — it runs to completion and returns a
result, because the code contains no validation of `k` (or of `step`).
This falsifies "rejected at the boundary before any computation". -/
theorem config_rejection_counterexample :
    ((-1 : ℚ) ≤ 0) ∧
    (run_analysis ["a"] ["b"] ["z", "z"] 2 1 (-1) (1 / 4)).isSome = true := by
  refine ⟨by norm_num, ?_⟩
  apply run_analysis_isSome_of
  apply scan_isSome_of _ _ _ _ (by decide) (by decide)
  intro i
  apply zonly_window_isSome
  intro t ht
  have h1 := List.take_subset _ _ ht
  have h2 := List.drop_subset _ _ h1
  rcases List.mem_cons.mp h2 with h | h
  · exact h
  · exact List.mem_singleton.mp h

/-- C9 amended: the code performs no configuration validation. A stride
`step = 0` is not rejected at the boundary: it surfaces as an error
raised from `range` inside the window scan — and only when at least two
tokens reach the scan; with fewer than two tokens the scan still
returns an empty result. A smoothing constant `k ≤ 0` is not rejected
at all: the pipeline can run to completion and produce output (see also
the counterexample). -/
theorem config_validation_amended :
    (∀ (tokens : List String) (scorer : LLRScorer) (window : ℕ),
      2 ≤ tokens.length →
      sliding_window_scores tokens scorer window 0 = none) ∧
    (∀ (tokens : List String) (scorer : LLRScorer) (window : ℕ),
      tokens.length < 2 →
      sliding_window_scores tokens scorer window 0 = some []) ∧
    (run_analysis ["a"] ["b"] ["z", "z", "z"] 2 1 (-1) (1 / 4)).isSome =
      true := by
  refine ⟨?_, ?_, ?_⟩
  · intro tokens scorer window hn
    simp only [sliding_window_scores]
    rw [if_neg (by omega)]
    have hpr : pythonRange 0
        (tokens.length - max 2 (min window tokens.length) + 1) 0 = none := by
      simp [pythonRange]
    simp only [Option.bind_eq_bind]
    rw [hpr]
    rfl
  · intro tokens scorer window hn
    simp only [sliding_window_scores]
    rw [if_pos hn]
  · apply run_analysis_isSome_of
    apply scan_isSome_of _ _ _ _ (by decide) (by decide)
    intro i
    apply zonly_window_isSome
    intro t ht
    have h1 := List.take_subset _ _ ht
    have h2 := List.drop_subset _ _ h1
    rcases List.mem_cons.mp h2 with h | h
    · exact h
    · rcases List.mem_cons.mp h with h' | h'
      · exact h'
      · exact List.mem_singleton.mp h'

/-- Witness for the amended C9 at concrete inputs: `step = 0` errors
from inside the scan with two tokens, but still returns an empty result
with one token. -/
theorem config_validation_amended_witness :
    sliding_window_scores ["x", "y"] (trainedScorer ["a"] ["b"] 1 (1 / 4))
        7 0 = none ∧
    sliding_window_scores ["x"] (trainedScorer ["a"] ["b"] 1 (1 / 4))
        7 0 = some [] :=
  ⟨config_validation_amended.1 ["x", "y"]
      (trainedScorer ["a"] ["b"] 1 (1 / 4)) 7 (by decide),
    config_validation_amended.2.1 ["x"]
      (trainedScorer ["a"] ["b"] 1 (1 / 4)) 7 (by decide)⟩

end Stylometry
